import Mathlib

/-!
Verification of the Mitabo upload-to-playable-media pipeline (`src/home.py`).

The Python source is shallowly embedded below: strings are Lean `String`s
(lists of characters), the upload directory is a finite list of names
already present, the database record is an explicit structure, the external
encoder is a parameter (`Except` value) supplying the outcome of the
`subprocess.run` call, and the file system writes of the transcoder are
returned explicitly.  Each definition mirrors the corresponding Python
function; Python-specific idioms (`or`-defaulting, truthiness of optional
strings, `str.strip`, `str.split`, `os.path.splitext`, decimal formatting
of the collision counter) are modelled explicitly.
-/

set_option maxHeartbeats 1000000

namespace Mitabo

/-- Python truthiness of a nullable string column: `None` and `""` are falsy,
any other string is truthy. -/
def pyTruthy : Option String → Bool
  | none => false
  | some s => !(s == "")

/-- Python `a or d` where `a` is a nullable string (`request.form.get` result):
yields `d` when `a` is `None` or empty. -/
def pyOr : Option String → String → String
  | none, d => d
  | some s, d => if s == "" then d else s

/-- Python `a or b` for two plain strings: yields `b` when `a` is empty. -/
def pyOrStr (a b : String) : String := if a == "" then b else a

/-- ASCII whitespace as recognised by Python `str.split()` / `str.strip()`. -/
def pyIsSpace (c : Char) : Bool :=
  c == ' ' || c == '\t' || c == '\n' || c == '\r' || c == '\x0b' || c == '\x0c'

/-- Python `str.strip()`: remove leading and trailing whitespace. -/
def pyStrip (s : String) : String :=
  String.mk (((s.data.dropWhile pyIsSpace).reverse.dropWhile pyIsSpace).reverse)

/-- Python `str.lower()` on the ASCII range (the only range the extension
allow-list comparison touches). -/
def pyLower (s : String) : String := String.mk (s.data.map Char.toLower)

/-- Index of the last `'.'` in a character list (`str.rfind('.')` when it hits). -/
def lastDotIdx : List Char → Option Nat
  | [] => none
  | c :: cs =>
    match lastDotIdx cs with
    | some i => some (i + 1)
    | none => if c == '.' then some 0 else none

/-- `ALLOWED_EXTENSIONS` from `home.py`. -/
def ALLOWED_EXTENSIONS : List String := ["mp4", "webm", "ogg", "mov", "m4v"]

/-- `allowed_file` from `home.py`:
`"." in filename and filename.rsplit(".", 1)[1].lower() in ALLOWED_EXTENSIONS`.
`rsplit(".", 1)[1]` is the text after the last dot. -/
def allowed_file (filename : String) : Bool :=
  filename.data.contains '.' &&
    (match lastDotIdx filename.data with
     | some i => ALLOWED_EXTENSIONS.contains (pyLower (String.mk (filename.data.drop (i + 1))))
     | none => false)

/-- `os.path.splitext` for a bare file name (no directory separators, as
produced by `secure_filename`): split at the last dot provided some non-dot
character precedes it; otherwise the extension is empty.  Mirrors CPython's
`genericpath._splitext`. -/
def splitext (p : String) : String × String :=
  match lastDotIdx p.data with
  | none => (p, "")
  | some i =>
    if (p.data.take i).any (fun c => !(c == '.')) then
      (String.mk (p.data.take i), String.mk (p.data.drop i))
    else (p, "")

/-- Characters kept by werkzeug's `secure_filename` regex `[^A-Za-z0-9_.-]`. -/
def allowedChar (c : Char) : Bool :=
  c.isAlpha || c.isDigit || c == '_' || c == '.' || c == '-'

/-- Characters stripped from both ends by `secure_filename` (`.strip("._")`). -/
def isDotUnd (c : Char) : Bool := c == '.' || c == '_'

/-- Python `str.split()` (split on runs of whitespace, dropping empties). -/
def pyWords : List Char → List Char → List (List Char)
  | [], acc => if acc.isEmpty then [] else [acc.reverse]
  | c :: cs, acc =>
    if pyIsSpace c then
      (if acc.isEmpty then pyWords cs [] else acc.reverse :: pyWords cs [])
    else pyWords cs (c :: acc)

/-- Strip characters satisfying `isDotUnd` from both ends of a list. -/
def stripDotUnd (l : List Char) : List Char :=
  ((l.dropWhile isDotUnd).reverse.dropWhile isDotUnd).reverse

/-- werkzeug's `secure_filename` (posix host):
replace the path separator `/` by a space, split on whitespace and re-join
with underscores, delete every character outside `[A-Za-z0-9_.-]`, and strip
leading/trailing dots and underscores.  The preliminary
`unicodedata.normalize("NFKD", ·).encode("ascii", "ignore")` step is modelled
by the ASCII filter; the later character filter removes every non-ASCII
character in any case, so the properties proved below hold for the composed
function regardless of the normalisation details. -/
def secure_filename (s : String) : String :=
  let ascii := s.data.filter (fun c => c.toNat ≤ 127)
  let spaced := ascii.map (fun c => if c == '/' then ' ' else c)
  let joined := List.intercalate ['_'] (pyWords spaced [])
  String.mk (stripDotUnd (joined.filter allowedChar))

/-- Decimal digit character for a value `0 ≤ d ≤ 9` (values above nine cannot
arise from `n % 10` / `n < 10`). -/
def digitChar : Nat → Char
  | 0 => '0' | 1 => '1' | 2 => '2' | 3 => '3' | 4 => '4'
  | 5 => '5' | 6 => '6' | 7 => '7' | 8 => '8' | _ => '9'

/-- Inverse of `digitChar` on decimal digit characters. -/
def digitVal : Char → Nat
  | '0' => 0 | '1' => 1 | '2' => 2 | '3' => 3 | '4' => 4
  | '5' => 5 | '6' => 6 | '7' => 7 | '8' => 8 | '9' => 9 | _ => 0

/-- Fuelled most-significant-first decimal digit expansion (fuel `n + 1`
always suffices since `n / 10 < n` for `n ≥ 10`). -/
def natDigitsFuel : Nat → Nat → List Char → List Char
  | 0, _, acc => acc
  | fuel + 1, n, acc =>
    if n < 10 then digitChar n :: acc
    else natDigitsFuel fuel (n / 10) (digitChar (n % 10) :: acc)

/-- Decimal digits of `n`, most significant first. -/
def digitsOf (n : Nat) : List Char := natDigitsFuel (n + 1) n []

/-- Decimal rendering of a natural number, as Python's f-string `{counter}`
interpolation produces it. -/
def natRepr (n : Nat) : String := String.mk (digitsOf n)

/-- The candidate name `f"{base}-{counter}{ext}"` tried by the collision loop
in `upload_post`. -/
def candName (base ext : String) (k : Nat) : String :=
  base ++ "-" ++ natRepr k ++ ext

/-- The `while os.path.exists(...)` collision loop of `upload_post`
(`home.py` lines 688–692), with the directory probe replaced by membership in
the list of names already present and an explicit fuel bound.  Fuel
`existing.length + 1` is enough for the loop to find a free name, which is
proved below (the Python loop therefore terminates within that many probes). -/
def reserveFrom (existing : List String) (base ext : String) :
    String → Nat → Nat → String
  | cur, _, 0 => cur
  | cur, counter, fuel + 1 =>
    if cur ∈ existing then
      reserveFrom existing base ext (candName base ext counter) (counter + 1) fuel
    else cur

/-- The storage namer of `upload_post` (`home.py` lines 686–692): sanitize the
client-supplied name, split into base and extension, and run the
suffix-and-retry loop against the names already present in the upload root. -/
def reserveName (existing : List String) (clientName : String) : String :=
  let filename := secure_filename clientName
  let be := splitext filename
  reserveFrom existing be.1 be.2 filename 1 (existing.length + 1)

/-- The `k`-th name probed by the collision loop started at `cur` with next
counter `counter`: the original name first, then the numbered candidates. -/
def trial (base ext cur : String) (counter : Nat) : Nat → String
  | 0 => cur
  | k + 1 => candName base ext (counter + k)

/-- The claim's reading of `rsplit(".", 1)[1]`: the substring after the last
dot, expressed independently of the source as the longest dot-free suffix. -/
def suffixAfterLastDot (f : String) : String :=
  String.mk ((f.data.reverse.takeWhile (fun c => !(c == '.'))).reverse)

/-- The `videos` table row, restricted to the pipeline-relevant columns of the
`Video` model in `home.py` (defaults mirror the column defaults). -/
structure Video where
  title : String := ""
  description : String := ""
  category : String := "tendance"
  filename : Option String := none
  external_url : Option String := none
  thumb_url : Option String := none
  creator : String := "Anonyme"
  hls_manifest : Option String := none
deriving Repr, DecidableEq

/-- `Video.source_url` (`home.py` lines 101–107).  `url_for("hls", filename=p)`
and `url_for("media", filename=p)` build the fixed route prefixes `/hls/` and
`/media/` followed by the relative path.  The function is total: it always
returns a string, possibly empty. -/
def source_url (v : Video) : String :=
  if pyTruthy v.hls_manifest then "/hls/" ++ (pyOr v.hls_manifest "")
  else if pyTruthy v.filename then "/media/" ++ (pyOr v.filename "")
  else pyOr v.external_url ""

/-- The master manifest text written by `transcode_to_hls` when ffmpeg did not
produce `master.m3u8` itself (`home.py` lines 197–200). -/
def masterContent : String :=
  "#EXTM3U\n#EXT-X-VERSION:3\n" ++
  "#EXT-X-STREAM-INF:BANDWIDTH=800000,RESOLUTION=640x360\nv0/index.m3u8\n" ++
  "#EXT-X-STREAM-INF:BANDWIDTH=2500000,RESOLUTION=1280x720\nv1/index.m3u8\n"

/-- Split a string at newline characters (used to inspect the synthesized
master manifest). -/
def splitLinesAux : List Char → List Char → List String
  | [], acc => [String.mk acc.reverse]
  | c :: cs, acc =>
    if c == '\n' then String.mk acc.reverse :: splitLinesAux cs []
    else splitLinesAux cs (c :: acc)

/-- Lines of a string (trailing empty line included, like `str.split("\n")`). -/
def strLines (s : String) : List String := splitLinesAux s.data []

/-- Whether a manifest line is a comment/tag line (starts with `#`). -/
def startsHash (l : String) : Bool :=
  match l.data with
  | '#' :: _ => true
  | _ => false

/-- Whether one character list begins with another. -/
def beginsWith : List Char → List Char → Bool
  | [], _ => true
  | _ :: _, [] => false
  | p :: ps, c :: cs => p == c && beginsWith ps cs

/-- Whether a manifest line is a `#EXT-X-STREAM-INF` variant declaration. -/
def isStreamInfLine (l : String) : Bool :=
  beginsWith "#EXT-X-STREAM-INF".data l.data

/-- `rel.replace("\\", "/")` from the tail of `transcode_to_hls`. -/
def toForwardSlashes (s : String) : String :=
  String.mk (s.data.map (fun c => if c == '\\' then '/' else c))

/-- `transcode_to_hls` (`home.py` lines 174–202), embedded over an explicit
encoder outcome.  The `subprocess.run` call is the parameter `encoder`: on
`error` the `CalledProcessError` is re-raised (propagated as `Except.error`);
on `ok` it carries the files ffmpeg wrote into the target directory
(paths relative to `target_dir`, with their contents).  The target directory
is `HLS_DIR/sub`, so `os.path.relpath(master_path, HLS_DIR)` is
`sub ++ "/master.m3u8"`.  The result on success is the final file set of the
target directory together with the returned relative manifest path. -/
def transcode_to_hls (encoder : Except String (List (String × String)))
    (sub : String) : Except String (List (String × String) × String) :=
  match encoder with
  | .error e => .error e
  | .ok produced =>
    let files :=
      if (produced.map Prod.fst).contains "master.m3u8" then produced
      else produced ++ [("master.m3u8", masterContent)]
    .ok (files, toForwardSlashes (sub ++ "/master.m3u8"))

/-- `CATEGORIES_MAP` keys from `home.py`. -/
def CATEGORY_IDS : List String := ["tendance", "jeux", "musique", "film", "sport"]

/-- The multipart form fields consumed by `upload_post`
(`request.form.get` yields `none` for an absent field). -/
structure UploadForm where
  title : Option String := none
  description : Option String := none
  category : Option String := none
  creator : Option String := none
  to_hls : Bool := false
deriving Repr, DecidableEq

/-- Ambient state of an upload request: the names already present in the
upload root, availability of the ffmpeg binary (`shutil.which("ffmpeg")`),
the outcome of the encoder run, the timestamp-derived HLS subdirectory name
`f"video_{...}"`, and the logged-in user's display name. -/
structure UploadEnv where
  existing : List String := []
  ffmpegAvailable : Bool := false
  encoder : Except String (List (String × String)) := .error "no encoder"
  hlsSubdir : String := "video_0"
  displayName : String := "Demo"

/-- Outcome of `upload_post`: a flashed rejection and redirect back to the
form, or a committed `Video` row (followed by a redirect to the watch page). -/
inductive UploadOutcome where
  | rejected (msg : String)
  | created (v : Video)
deriving Repr, DecidableEq

/-- The created row of an outcome, if any. -/
def outcomeVideo : UploadOutcome → Option Video
  | .rejected _ => none
  | .created v => some v

/-- `upload_post` (`home.py` lines 670–720), embedded as a pure function of
the request (`file` is the client-supplied filename, `none` when no file part
arrived; an empty-string filename is the "no file selected" case).  The
`f.save` disk write and the database commit are kept abstract; the function
returns the row that is committed.  A transcode failure is caught and only
logged/flashed: the row is still committed, without `hls_manifest`. -/
def upload_post (env : UploadEnv) (file : Option String) (form : UploadForm) :
    UploadOutcome :=
  let title := pyStrip (pyOr form.title "Sans titre")
  let description := pyStrip (pyOr form.description "")
  let category := pyOr form.category "tendance"
  let creator := pyStrip (pyOr form.creator (pyOrStr env.displayName "Anonyme"))
  match file with
  | none => .rejected "Aucun fichier reçu"
  | some fname =>
    if fname == "" then .rejected "Aucun fichier reçu"
    else if !(allowed_file fname) then .rejected "Extension non supportée"
    else
      let filename := secure_filename fname
      let be := splitext filename
      let final := reserveName env.existing fname
      let v : Video :=
        { title := title
          description := description
          category := if CATEGORY_IDS.contains category then category else "tendance"
          filename := some final
          thumb_url := some ("https://picsum.photos/seed/mitabo-" ++ be.1 ++ "/640/360")
          creator := creator }
      if form.to_hls && env.ffmpegAvailable then
        match transcode_to_hls env.encoder env.hlsSubdir with
        | .ok res => .created { v with hls_manifest := some res.2 }
        | .error _ => .created v
      else .created v

/-! ### Basic string lemmas -/

/-- Two strings with equal character lists are equal. -/
theorem str_ext {s t : String} (h : s.data = t.data) : s = t := by
  cases s; cases t; exact congrArg String.mk h

/-- `String.mk` distributes over list append. -/
theorem mk_append (a b : List Char) :
    String.mk a ++ String.mk b = String.mk (a ++ b) := rfl

/-- `splitext` decomposes its argument: base and extension concatenate back to
the original name. -/
theorem splitext_append (p : String) : (splitext p).1 ++ (splitext p).2 = p := by
  unfold splitext
  cases h : lastDotIdx p.data with
  | none => exact str_ext (by simp)
  | some i =>
    by_cases hc : (p.data.take i).any (fun c => !(c == '.'))
    · simp only [hc, if_pos]
      exact str_ext (by simp [List.take_append_drop])
    · simp only [hc, if_neg, Bool.false_eq_true, not_false_iff]
      exact str_ext (by simp)

/-- Characters of the base returned by `splitext` come from the input. -/
theorem splitext_fst_subset (p : String) {c : Char}
    (h : c ∈ (splitext p).1.data) : c ∈ p.data := by
  unfold splitext at h
  split at h
  · exact h
  · split at h
    · exact List.take_subset _ _ h
    · exact h

/-- Characters of the extension returned by `splitext` come from the input. -/
theorem splitext_snd_subset (p : String) {c : Char}
    (h : c ∈ (splitext p).2.data) : c ∈ p.data := by
  unfold splitext at h
  split at h
  · simp at h
  · split at h
    · exact List.drop_subset _ _ h
    · simp at h

/-! ### Decimal rendering of the collision counter -/

/-- `digitVal` inverts `digitChar` on genuine digits. -/
theorem digitVal_digitChar {d : Nat} (h : d < 10) :
    digitVal (digitChar d) = d := by
  interval_cases d <;> rfl

/-- Decimal digit characters are never a dot. -/
theorem digitChar_ne_dot {d : Nat} (h : d < 10) : digitChar d ≠ '.' := by
  interval_cases d <;> decide

/-- Decimal digit characters are never a path separator. -/
theorem digitChar_ne_slash {d : Nat} (h : d < 10) : digitChar d ≠ '/' := by
  interval_cases d <;> decide

/-- The fuelled digit expansion does not depend on the fuel, provided the fuel
exceeds the value. -/
theorem natDigitsFuel_irrel :
    ∀ f₁ f₂ n acc, n < f₁ → n < f₂ →
      natDigitsFuel f₁ n acc = natDigitsFuel f₂ n acc := by
  intro f₁
  induction f₁ with
  | zero => intro f₂ n acc h₁ _; omega
  | succ f ih =>
    intro f₂ n acc h₁ h₂
    cases f₂ with
    | zero => omega
    | succ g =>
      simp only [natDigitsFuel]
      by_cases hn : n < 10
      · simp [hn]
      · simp only [hn, if_neg, if_false]
        have hlt : n / 10 < n := Nat.div_lt_self (by omega) (by omega)
        exact ih g (n / 10) _ (by omega) (by omega)

/-- The accumulator of the digit expansion is a plain suffix. -/
theorem natDigitsFuel_append :
    ∀ f n acc, n < f →
      natDigitsFuel f n acc = natDigitsFuel f n [] ++ acc := by
  intro f
  induction f with
  | zero => intro n acc h; omega
  | succ g ih =>
    intro n acc h
    simp only [natDigitsFuel]
    by_cases hn : n < 10
    · simp [hn]
    · simp only [hn, if_neg, if_false]
      have hlt : n / 10 < n := Nat.div_lt_self (by omega) (by omega)
      rw [ih (n / 10) _ (by omega), ih (n / 10) [digitChar (n % 10)] (by omega)]
      simp

/-- Digits of a one-digit number. -/
theorem digitsOf_lt {n : Nat} (h : n < 10) : digitsOf n = [digitChar n] := by
  unfold digitsOf natDigitsFuel
  simp [h]

/-- Digit expansion step for numbers of at least two digits. -/
theorem digitsOf_ge {n : Nat} (h : 10 ≤ n) :
    digitsOf n = digitsOf (n / 10) ++ [digitChar (n % 10)] := by
  have hlt : n / 10 < n := Nat.div_lt_self (by omega) (by omega)
  unfold digitsOf
  conv_lhs => rw [natDigitsFuel]
  rw [if_neg (by omega)]
  rw [natDigitsFuel_irrel n (n / 10 + 1) (n / 10) _ (by omega) (by omega)]
  rw [natDigitsFuel_append (n / 10 + 1) (n / 10) _ (by omega)]

/-- The digit expansion is never empty. -/
theorem digitsOf_ne_nil (n : Nat) : digitsOf n ≠ [] := by
  by_cases h : n < 10
  · rw [digitsOf_lt h]; simp
  · rw [digitsOf_ge (by omega)]; simp

/-- Every character of a digit expansion is a decimal digit character. -/
theorem digitsOf_chars (n : Nat) :
    ∀ c ∈ digitsOf n, ∃ d, d < 10 ∧ c = digitChar d := by
  induction n using Nat.strong_induction_on with
  | _ n ih =>
    intro c hc
    by_cases h : n < 10
    · rw [digitsOf_lt h] at hc
      simp at hc
      exact ⟨n, h, hc⟩
    · rw [digitsOf_ge (by omega)] at hc
      rcases List.mem_append.mp hc with h1 | h1
      · exact ih (n / 10) (Nat.div_lt_self (by omega) (by omega)) c h1
      · simp at h1
        exact ⟨n % 10, Nat.mod_lt _ (by omega), h1⟩

/-- Folding the digit-value step over the digit expansion recovers the number
(with the accumulator shifted by the appropriate power of ten). -/
theorem digitsOf_foldl (n : Nat) :
    ∀ a, (digitsOf n).foldl (fun a c => a * 10 + digitVal c) a
      = a * 10 ^ (digitsOf n).length + n := by
  induction n using Nat.strong_induction_on with
  | _ n ih =>
    intro a
    by_cases h : n < 10
    · rw [digitsOf_lt h]
      simp [digitVal_digitChar h]
    · rw [digitsOf_ge (by omega)]
      rw [List.foldl_append]
      have hlt : n / 10 < n := Nat.div_lt_self (by omega) (by omega)
      rw [ih (n / 10) hlt a]
      simp only [List.foldl_cons, List.foldl_nil, List.length_append,
        List.length_singleton]
      rw [digitVal_digitChar (Nat.mod_lt _ (by omega))]
      rw [pow_succ]
      have := Nat.div_add_mod n 10
      ring_nf
      omega

/-- The decimal digit expansion is injective. -/
theorem digitsOf_inj {m n : Nat} (h : digitsOf m = digitsOf n) : m = n := by
  have hm := digitsOf_foldl m 0
  have hn := digitsOf_foldl n 0
  rw [h] at hm
  simp only [Nat.zero_mul, Nat.zero_add] at hm hn
  omega

/-- Decimal rendering of naturals is injective. -/
theorem natRepr_inj {m n : Nat} (h : natRepr m = natRepr n) : m = n :=
  digitsOf_inj (congrArg String.data h)

/-! ### The collision-suffix loop -/

/-- Character list of a candidate name, in head-normal shape. -/
theorem candName_data (base ext : String) (k : Nat) :
    (candName base ext k).data
      = base.data ++ '-' :: ((natRepr k).data ++ ext.data) := by
  unfold candName
  simp [String.data_append]

/-- Distinct counters give distinct candidate names. -/
theorem candName_inj {base ext : String} {i j : Nat}
    (h : candName base ext i = candName base ext j) : i = j := by
  have hd := congrArg String.data h
  rw [candName_data, candName_data] at hd
  have h1 := List.append_cancel_left hd
  have h2 : (natRepr i).data ++ ext.data = (natRepr j).data ++ ext.data :=
    (List.cons.inj h1).2
  have h3 : (natRepr i).data = (natRepr j).data := List.append_cancel_right h2
  exact natRepr_inj (str_ext h3)

/-- A candidate name is strictly longer than `base ++ ext`, hence distinct
from the original (unsuffixed) file name. -/
theorem candName_ne_plain (base ext : String) (k : Nat) :
    candName base ext k ≠ base ++ ext := by
  intro h
  have hd := congrArg (fun s => s.data.length) h
  simp only [candName_data, String.data_append, List.length_append,
    List.length_cons] at hd
  have : (natRepr k).data.length ≠ 0 := by
    simpa [natRepr, List.length_eq_zero] using digitsOf_ne_nil k
  omega

/-- Restarting the trial sequence after one probe shifts the index by one. -/
theorem trial_shift (base ext cur : String) (counter k : Nat) :
    trial base ext (candName base ext counter) (counter + 1) k
      = trial base ext cur counter (k + 1) := by
  cases k with
  | zero => simp [trial]
  | succ j => simp [trial, Nat.add_assoc, Nat.add_comm 1 j]

/-- If some probe within the fuel bound is free, the loop returns a name that
is not already present. -/
theorem reserveFrom_not_mem (existing : List String) (base ext : String) :
    ∀ fuel cur counter,
      (∃ k, k < fuel ∧ trial base ext cur counter k ∉ existing) →
      reserveFrom existing base ext cur counter fuel ∉ existing := by
  intro fuel
  induction fuel with
  | zero => intro cur counter ⟨k, hk, _⟩; omega
  | succ f ih =>
    intro cur counter ⟨k, hk, hfree⟩
    by_cases hmem : cur ∈ existing
    · have hk0 : k ≠ 0 := by
        intro h0; rw [h0] at hfree; exact hfree hmem
      obtain ⟨j, rfl⟩ : ∃ j, k = j + 1 := ⟨k - 1, by omega⟩
      rw [reserveFrom, if_pos hmem]
      exact ih (candName base ext counter) (counter + 1)
        ⟨j, by omega, by rw [trial_shift base ext cur counter j]; exact hfree⟩
    · rw [reserveFrom, if_neg hmem]
      exact hmem

/-- The trial sequence is injective: the unsuffixed name differs from every
candidate by length, and candidates differ among themselves by counter. -/
theorem trial_inj (base ext : String) (counter : Nat) {i j : Nat}
    (h : trial base ext (base ++ ext) counter i
       = trial base ext (base ++ ext) counter j) : i = j := by
  cases i with
  | zero =>
    cases j with
    | zero => rfl
    | succ j' => exact absurd h.symm (candName_ne_plain base ext (counter + j'))
  | succ i' =>
    cases j with
    | zero => exact absurd h (candName_ne_plain base ext (counter + i'))
    | succ j' =>
      have := candName_inj (show candName base ext (counter + i')
        = candName base ext (counter + j') from h)
      omega

/-- Pigeonhole: among `existing.length + 1` pairwise-distinct probed names,
at least one is not in `existing`. -/
theorem exists_free_trial (existing : List String) (base ext : String) :
    ∃ k, k < existing.length + 1 ∧
      trial base ext (base ++ ext) 1 k ∉ existing := by
  by_contra hall
  push_neg at hall
  set N := existing.length with hN
  set g : Nat → String := trial base ext (base ++ ext) 1 with hg
  have hsub : (Finset.range (N + 1)).image g ⊆ existing.toFinset := by
    intro s hs
    rcases Finset.mem_image.mp hs with ⟨k, hk, rfl⟩
    exact List.mem_toFinset.mpr (hall k (Finset.mem_range.mp hk))
  have hcard : ((Finset.range (N + 1)).image g).card = N + 1 := by
    rw [Finset.card_image_of_injOn, Finset.card_range]
    intro a _ b _ hab
    exact trial_inj base ext 1 hab
  have hle := Finset.card_le_card hsub
  have htf : existing.toFinset.card ≤ N := existing.toFinset_card_le
  omega

/-- The storage namer returns a name not already present in the upload root. -/
theorem reserveName_not_mem (existing : List String) (clientName : String) :
    reserveName existing clientName ∉ existing := by
  unfold reserveName
  have hplain : (splitext (secure_filename clientName)).1
      ++ (splitext (secure_filename clientName)).2 = secure_filename clientName :=
    splitext_append _
  apply reserveFrom_not_mem
  obtain ⟨k, hk, hfree⟩ :=
    exists_free_trial existing (splitext (secure_filename clientName)).1
      (splitext (secure_filename clientName)).2
  exact ⟨k, hk, by rwa [hplain] at hfree⟩

/-- The loop result is either the unsuffixed name or a numbered candidate. -/
theorem reserveFrom_shape (existing : List String) (base ext : String) :
    ∀ fuel cur counter,
      reserveFrom existing base ext cur counter fuel = cur ∨
      ∃ k, reserveFrom existing base ext cur counter fuel = candName base ext k := by
  intro fuel
  induction fuel with
  | zero => intro cur counter; left; rfl
  | succ f ih =>
    intro cur counter
    by_cases hmem : cur ∈ existing
    · rw [reserveFrom, if_pos hmem]
      rcases ih (candName base ext counter) (counter + 1) with h | ⟨k, hk⟩
      · exact Or.inr ⟨counter, h⟩
      · exact Or.inr ⟨k, hk⟩
    · rw [reserveFrom, if_neg hmem]
      left; rfl

/-! ### Character-level facts about the sanitizer and the final name -/

/-- Membership survives `dropWhile`. -/
theorem mem_of_dropWhile {α : Type} {p : α → Bool} :
    ∀ {l : List α} {a : α}, a ∈ l.dropWhile p → a ∈ l := by
  intro l
  induction l with
  | nil => intro a h; simp [List.dropWhile] at h
  | cons c cs ih =>
    intro a h
    rw [List.dropWhile_cons] at h
    by_cases hp : p c
    · rw [if_pos hp] at h
      exact List.mem_cons_of_mem c (ih h)
    · rw [if_neg hp] at h
      exact h

/-- The first element surviving `dropWhile` does not satisfy the predicate. -/
theorem dropWhile_head_false {α : Type} {p : α → Bool} :
    ∀ (l : List α) (c : α) (rest : List α),
      l.dropWhile p = c :: rest → p c = false := by
  intro l
  induction l with
  | nil => intro c rest h; simp [List.dropWhile] at h
  | cons x xs ih =>
    intro c rest h
    rw [List.dropWhile_cons] at h
    by_cases hp : p x
    · rw [if_pos hp] at h
      exact ih c rest h
    · rw [if_neg hp] at h
      obtain ⟨rfl, -⟩ := List.cons.inj h
      exact Bool.of_not_eq_true hp

/-- Stripping end characters only removes elements. -/
theorem mem_of_stripDotUnd {l : List Char} {c : Char}
    (h : c ∈ stripDotUnd l) : c ∈ l := by
  unfold stripDotUnd at h
  rw [List.mem_reverse] at h
  have h1 := mem_of_dropWhile h
  rw [List.mem_reverse] at h1
  exact mem_of_dropWhile h1

/-- The stripped name is never `".."`. -/
theorem stripDotUnd_ne_dotdot (l : List Char) : stripDotUnd l ≠ ['.', '.'] := by
  intro h
  unfold stripDotUnd at h
  have hx : (l.dropWhile isDotUnd).reverse.dropWhile isDotUnd = ['.', '.'] := by
    have := congrArg List.reverse h
    simpa using this
  have := dropWhile_head_false _ _ _ hx
  simp [isDotUnd] at this

/-- Every character of a sanitized name is in `[A-Za-z0-9_.-]`. -/
theorem secure_filename_chars (s : String) :
    ∀ c ∈ (secure_filename s).data, allowedChar c = true := by
  intro c hc
  unfold secure_filename at hc
  simp only [String.data] at hc
  exact (List.mem_filter.mp (mem_of_stripDotUnd hc)).2

/-- A sanitized name is never the parent-directory reference `".."`. -/
theorem secure_filename_ne_dotdot (s : String) : secure_filename s ≠ ".." := by
  intro h
  have hd := congrArg String.data h
  unfold secure_filename at hd
  simp only [String.data] at hd
  exact stripDotUnd_ne_dotdot _ (hd.trans rfl)

/-- A numbered candidate name always contains the dash separating the counter,
so it is never `".."`. -/
theorem candName_ne_dotdot (base ext : String) (k : Nat) :
    candName base ext k ≠ ".." := by
  intro h
  have hd := congrArg String.data h
  rw [candName_data] at hd
  have hdash : '-' ∈ (".." : String).data := by
    rw [← hd]; simp
  simp at hdash

/-- Characters of a numbered candidate come from the base, the dash, the
decimal counter, or the extension. -/
theorem candName_chars (base ext : String) (k : Nat) {c : Char}
    (h : c ∈ (candName base ext k).data) :
    c ∈ base.data ∨ c = '-' ∨ (∃ d, d < 10 ∧ c = digitChar d) ∨ c ∈ ext.data := by
  rw [candName_data] at h
  rcases List.mem_append.mp h with h1 | h1
  · exact Or.inl h1
  · rcases List.mem_cons.mp h1 with h2 | h2
    · exact Or.inr (Or.inl h2)
    · rcases List.mem_append.mp h2 with h3 | h3
      · exact Or.inr (Or.inr (Or.inl (digitsOf_chars k c h3)))
      · exact Or.inr (Or.inr (Or.inr h3))

/-- The namer's output is the sanitized name itself or a numbered candidate
built from its base and extension. -/
theorem reserveName_shape (existing : List String) (clientName : String) :
    reserveName existing clientName = secure_filename clientName ∨
    ∃ k, reserveName existing clientName
        = candName (splitext (secure_filename clientName)).1
            (splitext (secure_filename clientName)).2 k := by
  unfold reserveName
  exact reserveFrom_shape existing _ _ _ _ _

/-- No character of the namer's output is a path separator. -/
theorem reserveName_no_slash (existing : List String) (clientName : String) :
    ∀ c ∈ (reserveName existing clientName).data, c ≠ '/' := by
  intro c hc
  rcases reserveName_shape existing clientName with h | ⟨k, h⟩
  · rw [h] at hc
    have := secure_filename_chars clientName c hc
    intro heq; subst heq; simp [allowedChar] at this
  · rw [h] at hc
    rcases candName_chars _ _ _ hc with h1 | h1 | ⟨d, hd, rfl⟩ | h1
    · have := secure_filename_chars clientName c (splitext_fst_subset _ h1)
      intro heq; subst heq; simp [allowedChar] at this
    · subst h1; decide
    · exact digitChar_ne_slash hd
    · have := secure_filename_chars clientName c (splitext_snd_subset _ h1)
      intro heq; subst heq; simp [allowedChar] at this

/-- The namer's output is never the parent-directory reference. -/
theorem reserveName_ne_dotdot (existing : List String) (clientName : String) :
    reserveName existing clientName ≠ ".." := by
  rcases reserveName_shape existing clientName with h | ⟨k, h⟩
  · rw [h]; exact secure_filename_ne_dotdot clientName
  · rw [h]; exact candName_ne_dotdot _ _ k

/-! ### The last-dot split used by the ingest validator -/

/-- `lastDotIdx` misses exactly when there is no dot. -/
theorem lastDotIdx_none_iff : ∀ l : List Char, lastDotIdx l = none ↔ '.' ∉ l := by
  intro l
  induction l with
  | nil => simp [lastDotIdx]
  | cons c cs ih =>
    rw [lastDotIdx]
    cases hcs : lastDotIdx cs with
    | some i =>
      simp only [hcs]
      constructor
      · intro h; exact absurd h (by simp)
      · intro h
        exact absurd ((ih.mpr (fun hm => h (List.mem_cons_of_mem c hm))).symm.trans hcs)
          (by simp)
    | none =>
      have hmem : '.' ∉ cs := ih.mp hcs
      simp only [hcs]
      by_cases hc : c == '.'
      · rw [if_pos hc]
        simp only [beq_iff_eq] at hc
        subst hc
        simp
      · rw [if_neg hc]
        simp only [beq_iff_eq] at hc
        simp [hmem, Ne.symm hc]

/-- A hit of `lastDotIdx` witnesses a dot in the list. -/
theorem lastDotIdx_mem : ∀ (l : List Char) (i : Nat), lastDotIdx l = some i → '.' ∈ l := by
  intro l
  induction l with
  | nil => intro i h; simp [lastDotIdx] at h
  | cons c cs ih =>
    intro i h
    rw [lastDotIdx] at h
    cases hcs : lastDotIdx cs with
    | some j => exact List.mem_cons_of_mem c (ih j hcs)
    | none =>
      rw [hcs] at h
      by_cases hc : c == '.'
      · simp only [beq_iff_eq] at hc
        subst hc
        exact List.mem_cons_self _ _
      · rw [if_neg hc] at h
        simp at h

/-- `takeWhile` over an append stops inside the first part when it contains a
failing element. -/
theorem takeWhile_append_stop {α : Type} {p : α → Bool} :
    ∀ (xs ys : List α), (∃ x ∈ xs, p x = false) →
      (xs ++ ys).takeWhile p = xs.takeWhile p := by
  intro xs
  induction xs with
  | nil => intro ys ⟨x, hx, _⟩; simp at hx
  | cons c cs ih =>
    intro ys ⟨x, hx, hpx⟩
    rw [List.cons_append, List.takeWhile_cons, List.takeWhile_cons]
    by_cases hc : p c
    · rw [if_pos hc, if_pos hc]
      rcases List.mem_cons.mp hx with rfl | hx'
      · rw [hpx] at hc; exact absurd hc (by simp)
      · rw [ih ys ⟨x, hx', hpx⟩]
    · rw [if_neg hc, if_neg hc]

/-- `takeWhile` over an append passes through a first part whose elements all
succeed. -/
theorem takeWhile_append_all {α : Type} {p : α → Bool} :
    ∀ (xs ys : List α), (∀ x ∈ xs, p x = true) →
      (xs ++ ys).takeWhile p = xs ++ ys.takeWhile p := by
  intro xs
  induction xs with
  | nil => intro ys _; simp
  | cons c cs ih =>
    intro ys hall
    rw [List.cons_append, List.takeWhile_cons, if_pos (hall c (by simp)),
      ih ys (fun x hx => hall x (List.mem_cons_of_mem c hx)), List.cons_append]

/-- Dropping past the last dot is the same as taking the dot-free suffix. -/
theorem drop_after_lastDot :
    ∀ (l : List Char) (i : Nat), lastDotIdx l = some i →
      l.drop (i + 1) = (l.reverse.takeWhile (fun c => !(c == '.'))).reverse := by
  intro l
  induction l with
  | nil => intro i h; simp [lastDotIdx] at h
  | cons c cs ih =>
    intro i h
    rw [lastDotIdx] at h
    cases hcs : lastDotIdx cs with
    | some j =>
      rw [hcs] at h
      obtain rfl : i = j + 1 := by simpa using h.symm
      have hdot : '.' ∈ cs.reverse := List.mem_reverse.mpr (lastDotIdx_mem cs j hcs)
      rw [List.drop_succ_cons, ih j hcs, List.reverse_cons,
        takeWhile_append_stop cs.reverse [c] ⟨'.', hdot, by simp⟩]
    | none =>
      rw [hcs] at h
      by_cases hc : c == '.'
      · rw [if_pos hc] at h
        obtain rfl : i = 0 := by simpa using h.symm
        simp only [beq_iff_eq] at hc
        subst hc
        have hnd : '.' ∉ cs := (lastDotIdx_none_iff cs).mp hcs
        have hall : ∀ x ∈ cs.reverse, (!(x == '.')) = true := by
          intro x hx
          have : x ≠ '.' := fun heq => hnd (heq ▸ List.mem_reverse.mp hx)
          simp [this]
        rw [List.drop_succ_cons, List.drop_zero, List.reverse_cons,
          takeWhile_append_all cs.reverse ['.'] hall]
        simp
      · rw [if_neg hc] at h
        simp at h

/-! ### Remaining shared helpers -/

/-- `replace("\\", "/")` is the identity on backslash-free strings. -/
theorem toForwardSlashes_eq_self {s : String} (h : ∀ c ∈ s.data, c ≠ '\\') :
    toForwardSlashes s = s := by
  apply str_ext
  unfold toForwardSlashes
  show s.data.map _ = s.data
  have hm : s.data.map (fun c => if c == '\\' then '/' else c) = s.data.map id :=
    List.map_congr_left (fun c hc => by simp [h c hc])
  rw [hm, List.map_id]

/-- On a valid upload, `upload_post` commits a row whose fields are the ones
computed by the orchestrator, whatever the transcode outcome. -/
theorem upload_created_fields (env : UploadEnv) (form : UploadForm)
    (fname : String) (hne : fname ≠ "") (hok : allowed_file fname = true) :
    ∃ v, upload_post env (some fname) form = .created v ∧
      v.title = pyStrip (pyOr form.title "Sans titre") ∧
      v.category = (if CATEGORY_IDS.contains (pyOr form.category "tendance")
        then pyOr form.category "tendance" else "tendance") ∧
      v.thumb_url = some ("https://picsum.photos/seed/mitabo-"
        ++ (splitext (secure_filename fname)).1 ++ "/640/360") ∧
      v.filename = some (reserveName env.existing fname) ∧
      v.creator = pyStrip (pyOr form.creator (pyOrStr env.displayName "Anonyme")) := by
  have hb : (fname == "") = false := beq_eq_false_iff_ne.mpr hne
  unfold upload_post
  simp only [hb, Bool.false_eq_true, if_false, hok, Bool.not_true]
  by_cases hif : (form.to_hls && env.ffmpegAvailable) = true
  · rw [if_pos hif]
    cases htc : transcode_to_hls env.encoder env.hlsSubdir with
    | ok res => exact ⟨_, rfl, rfl, rfl, rfl, rfl, rfl⟩
    | error e => exact ⟨_, rfl, rfl, rfl, rfl, rfl, rfl⟩
  · rw [if_neg hif]
    exact ⟨_, rfl, rfl, rfl, rfl, rfl, rfl⟩

/-! ### Claim theorems -/

/-- C1: the playback locator resolver `source_url` follows the strict priority
streaming manifest > stored file > external URL > empty string.  When
`hls_manifest` holds a (nonempty) value the streaming route is returned
regardless of the other fields; otherwise a (nonempty) `filename` gives the
media route; otherwise a (nonempty) `external_url` is returned verbatim;
otherwise the empty string.  The function is total by construction. -/
theorem source_url_priority_total (v : Video) :
    (∀ m, v.hls_manifest = some m → m ≠ "" → source_url v = "/hls/" ++ m) ∧
    (pyTruthy v.hls_manifest = false →
      ∀ f, v.filename = some f → f ≠ "" → source_url v = "/media/" ++ f) ∧
    (pyTruthy v.hls_manifest = false → pyTruthy v.filename = false →
      ∀ u, v.external_url = some u → u ≠ "" → source_url v = u) ∧
    (pyTruthy v.hls_manifest = false → pyTruthy v.filename = false →
      pyTruthy v.external_url = false → source_url v = "") := by
  refine ⟨?_, ?_, ?_, ?_⟩
  · intro m hm hne
    simp [source_url, pyTruthy, pyOr, hm, hne]
  · intro h0 f hf hne
    simp only [source_url, h0, Bool.false_eq_true, if_false]
    simp [pyTruthy, pyOr, hf, hne]
  · intro h0 h1 u hu hne
    simp only [source_url, h0, h1, Bool.false_eq_true, if_false]
    simp [pyOr, hu, hne]
  · intro h0 h1 h2
    simp only [source_url, h0, h1, Bool.false_eq_true, if_false]
    cases hu : v.external_url with
    | none => simp [pyOr]
    | some u =>
      rw [hu] at h2
      have : u = "" := by simpa [pyTruthy] using h2
      subst this
      simp [pyOr, hu]

/-- C1 witness: a concrete asset with all three locations set resolves to the
streaming route. -/
theorem source_url_priority_total_witness :
    source_url { filename := some "a.mp4", external_url := some "http://x",
                 hls_manifest := some "m/master.m3u8" } = "/hls/m/master.m3u8" :=
  (source_url_priority_total _).1 "m/master.m3u8" rfl (by decide)

/-- C2: `allowed_file` accepts exactly the filenames containing a dot whose
lowercased suffix after the last dot is in the allow-list; `"clip.MP4"` is
accepted, `"clip.exe"` and the extensionless `"noext"` are rejected. -/
theorem allowed_file_ext_gate :
    (∀ f : String, allowed_file f = true ↔
      ('.' ∈ f.data ∧ pyLower (suffixAfterLastDot f) ∈ ALLOWED_EXTENSIONS)) ∧
    allowed_file "clip.MP4" = true ∧
    allowed_file "clip.exe" = false ∧
    allowed_file "noext" = false := by
  refine ⟨fun f => ?_, by decide, by decide, by decide⟩
  unfold allowed_file
  cases hd : lastDotIdx f.data with
  | none =>
    have hnd : '.' ∉ f.data := (lastDotIdx_none_iff f.data).mp hd
    simp [hnd]
  | some i =>
    have hmem : '.' ∈ f.data := lastDotIdx_mem f.data i hd
    have hdrop := drop_after_lastDot f.data i hd
    unfold suffixAfterLastDot
    rw [← hdrop]
    simp [hmem]

/-- C2 witness: the universally quantified gate applied at `"a.mp4"`. -/
theorem allowed_file_ext_gate_witness :
    allowed_file "a.mp4" = true :=
  (allowed_file_ext_gate.1 "a.mp4").mpr ⟨by decide, by decide⟩

/-- C3: reserving `"a.mp4"` against an empty upload root yields `"a.mp4"`;
against `{"a.mp4"}` yields `"a-1.mp4"`; against `{"a.mp4", "a-1.mp4"}` yields
`"a-2.mp4"`. -/
theorem reserve_name_collision_sequence :
    reserveName [] "a.mp4" = "a.mp4" ∧
    reserveName ["a.mp4"] "a.mp4" = "a-1.mp4" ∧
    reserveName ["a.mp4", "a-1.mp4"] "a.mp4" = "a-2.mp4" :=
  ⟨by decide, by decide, by decide⟩

/-- C4: when transcoding is requested, ffmpeg is present, and the encoder run
fails (raises), the upload still succeeds: a row is committed with
`filename` set to the reserved name and `hls_manifest` unset, and no
rejection is returned. -/
theorem upload_transcode_failure_fallback (env : UploadEnv) (form : UploadForm)
    (fname msg : String)
    (henc : env.encoder = .error msg) (hhls : form.to_hls = true)
    (hff : env.ffmpegAvailable = true) (hne : fname ≠ "")
    (hok : allowed_file fname = true) :
    ∃ v, upload_post env (some fname) form = .created v ∧
      v.hls_manifest = none ∧
      v.filename = some (reserveName env.existing fname) := by
  have hb : (fname == "") = false := beq_eq_false_iff_ne.mpr hne
  unfold upload_post
  simp only [hb, Bool.false_eq_true, if_false, hok, Bool.not_true, hhls, hff,
    Bool.and_self, if_true, henc]
  exact ⟨_, rfl, rfl, rfl⟩

/-- C4 witness: a concrete failing encoder still yields a created row. -/
theorem upload_transcode_failure_fallback_witness :
    ∃ v, upload_post
        { existing := [], ffmpegAvailable := true, encoder := .error "exit 1",
          hlsSubdir := "video_1", displayName := "Demo" }
        (some "a.mp4") { to_hls := true } = .created v ∧
      v.hls_manifest = none ∧
      v.filename = some (reserveName [] "a.mp4") :=
  upload_transcode_failure_fallback _ _ "a.mp4" "exit 1" rfl rfl rfl
    (by decide) (by decide)

/-- C5: when the encoder run succeeds but did not produce the top-level
`master.m3u8`, the invoker itself writes a master manifest whose non-tag lines
reference exactly the two rendition manifests `v0/index.m3u8` and
`v1/index.m3u8`, whose variant declarations carry bandwidth and resolution
metadata, and returns successfully with the manifest path relative to the
streaming root in forward-slash form. -/
theorem transcode_master_manifest_synthesis
    (produced : List (String × String)) (sub : String)
    (hnomaster : (produced.map Prod.fst).contains "master.m3u8" = false)
    (hnoback : sub.data.contains '\\' = false) :
    transcode_to_hls (.ok produced) sub
      = .ok (produced ++ [("master.m3u8", masterContent)],
              sub ++ "/master.m3u8") ∧
    (strLines masterContent).filter (fun l => !(l == "") && !(startsHash l))
      = ["v0/index.m3u8", "v1/index.m3u8"] ∧
    (strLines masterContent).filter isStreamInfLine
      = ["#EXT-X-STREAM-INF:BANDWIDTH=800000,RESOLUTION=640x360",
         "#EXT-X-STREAM-INF:BANDWIDTH=2500000,RESOLUTION=1280x720"] := by
  refine ⟨?_, by decide, by decide⟩
  unfold transcode_to_hls
  simp only [hnomaster, Bool.false_eq_true, if_false]
  have hsub : ∀ c ∈ sub.data, c ≠ '\\' := by
    intro c hc heq
    subst heq
    have hmem : sub.data.contains '\\' = true := by simpa using hc
    rw [hmem] at hnoback
    simp at hnoback
  have hlit : ∀ c ∈ ("/master.m3u8" : String).data, c ≠ '\\' := by decide
  have hall : ∀ c ∈ (sub ++ "/master.m3u8").data, c ≠ '\\' := by
    intro c hc
    rw [String.data_append] at hc
    rcases List.mem_append.mp hc with h | h
    · exact hsub c h
    · exact hlit c h
  rw [toForwardSlashes_eq_self hall]

/-- C5 witness: concrete rendition-only encoder output gets a synthesized
master manifest and a forward-slash relative path. -/
theorem transcode_master_manifest_synthesis_witness :
    transcode_to_hls (.ok [("v0/index.m3u8", "A"), ("v1/index.m3u8", "B")])
        "video_1"
      = .ok ([("v0/index.m3u8", "A"), ("v1/index.m3u8", "B"),
              ("master.m3u8", masterContent)], "video_1/master.m3u8") :=
  (transcode_master_manifest_synthesis
    [("v0/index.m3u8", "A"), ("v1/index.m3u8", "B")] "video_1"
    (by decide) (by decide)).1

/-- C6: with the encoder binary absent, the upload outcome does not depend on
the encoder at all (transcoding is not attempted and no error path is
entered), and a valid upload still yields a created row without a streaming
rendition. -/
theorem upload_skips_transcode_without_ffmpeg
    (existing : List String) (enc enc' : Except String (List (String × String)))
    (sub disp : String) (form : UploadForm) (fname : String) :
    upload_post ⟨existing, false, enc, sub, disp⟩ (some fname) form
      = upload_post ⟨existing, false, enc', sub, disp⟩ (some fname) form ∧
    (form.to_hls = true → fname ≠ "" → allowed_file fname = true →
      ∃ v, upload_post ⟨existing, false, enc, sub, disp⟩ (some fname) form
        = .created v ∧ v.hls_manifest = none ∧ v.filename.isSome = true) := by
  constructor
  · unfold upload_post
    simp [Bool.and_false]
  · intro _ hne hok
    have hb : (fname == "") = false := beq_eq_false_iff_ne.mpr hne
    unfold upload_post
    simp only [hb, Bool.false_eq_true, if_false, hok, Bool.not_true,
      Bool.and_false, if_false]
    exact ⟨_, rfl, rfl, rfl⟩

/-- C6 witness: concrete upload with ffmpeg absent succeeds without a
manifest, for two different encoder stand-ins. -/
theorem upload_skips_transcode_without_ffmpeg_witness :
    ∃ v, upload_post ⟨[], false, .error "absent", "video_1", "Demo"⟩
        (some "a.mp4") { to_hls := true } = .created v ∧
      v.hls_manifest = none ∧ v.filename.isSome = true :=
  (upload_skips_transcode_without_ffmpeg [] (.error "absent") (.ok [])
    "video_1" "Demo" { to_hls := true } "a.mp4").2 rfl (by decide) (by decide)

/-- C7 (counterexample): an upload whose form carries an empty title is
committed with title `"Sans titre"`, not `"Untitled"` as the claim states. -/
theorem upload_title_default_counterexample :
    (outcomeVideo (upload_post
        { existing := [], ffmpegAvailable := false, encoder := .error "e",
          hlsSubdir := "s", displayName := "Demo" }
        (some "a.mp4") { title := some "" })).map Video.title
      = some "Sans titre" ∧
    ("Sans titre" : String) ≠ "Untitled" :=
  ⟨by decide, by decide⟩

/-- C7 (amended): a missing or empty title defaults to `"Sans titre"`; a
non-empty title is stored after trimming surrounding whitespace; a missing or
unrecognized category is replaced by the baseline `"tendance"`, a recognized
one is stored unchanged. -/
theorem upload_title_category_defaults (env : UploadEnv) (form : UploadForm)
    (fname : String) (hne : fname ≠ "") (hok : allowed_file fname = true) :
    ∃ v, upload_post env (some fname) form = .created v ∧
      ((form.title = none ∨ form.title = some "") → v.title = "Sans titre") ∧
      (∀ t, form.title = some t → t ≠ "" → v.title = pyStrip t) ∧
      (form.category = none → v.category = "tendance") ∧
      (∀ c, form.category = some c → CATEGORY_IDS.contains c = true →
        v.category = c) ∧
      (∀ c, form.category = some c → CATEGORY_IDS.contains c = false →
        v.category = "tendance") := by
  obtain ⟨v, hv, ht, hc, -, -, -⟩ := upload_created_fields env form fname hne hok
  refine ⟨v, hv, ?_, ?_, ?_, ?_, ?_⟩
  · rintro (h | h) <;> rw [ht, h] <;> decide
  · intro t h hne'
    rw [ht, h]
    simp [pyOr, beq_eq_false_iff_ne.mpr hne']
  · intro h
    rw [hc, h]
    decide
  · intro c h hin
    have hcne : (c == "") = false := by
      rw [beq_eq_false_iff_ne]
      intro heq
      subst heq
      exact absurd hin (by decide)
    rw [hc, h]
    simp only [pyOr, hcne, Bool.false_eq_true, if_false]
    rw [if_pos hin]
  · intro c h hout
    rw [hc, h]
    by_cases hce : (c == "") = true
    · simp [pyOr, hce]
    · simp only [pyOr, hce, Bool.false_eq_true, if_false]
      rw [if_neg (fun hmem => by rw [hout] at hmem; exact Bool.noConfusion hmem)]

/-- C7 witness: the amended statement applied at a concrete upload with a
padded title and a recognized category. -/
theorem upload_title_category_defaults_witness :
    ∃ v, upload_post
        { existing := [], ffmpegAvailable := false, encoder := .error "e",
          hlsSubdir := "s", displayName := "Demo" }
        (some "a.mp4") { title := some " Clip ", category := some "film" }
      = .created v ∧
      ((some " Clip " = (none : Option String) ∨ (some " Clip " : Option String) = some "") →
        v.title = "Sans titre") ∧
      (∀ t, (some " Clip " : Option String) = some t → t ≠ "" →
        v.title = pyStrip t) ∧
      ((some "film" : Option String) = none → v.category = "tendance") ∧
      (∀ c, (some "film" : Option String) = some c →
        CATEGORY_IDS.contains c = true → v.category = c) ∧
      (∀ c, (some "film" : Option String) = some c →
        CATEGORY_IDS.contains c = false → v.category = "tendance") :=
  upload_title_category_defaults
    { existing := [], ffmpegAvailable := false, encoder := .error "e",
      hlsSubdir := "s", displayName := "Demo" }
    { title := some " Clip ", category := some "film" } "a.mp4"
    (by decide) (by decide)

/-- C8 (counterexample): uploading `"a.mp4"` while `"a.mp4"` already exists
stores the file as `"a-1.mp4"` but derives the thumbnail URL from the base
`"a"` of the sanitized client name, not from the base `"a-1"` of the stored
name as the claim states. -/
theorem thumb_url_collision_counterexample :
    (outcomeVideo (upload_post { existing := ["a.mp4"] } (some "a.mp4")
        {})).map Video.filename = some (some "a-1.mp4") ∧
    (outcomeVideo (upload_post { existing := ["a.mp4"] } (some "a.mp4")
        {})).map Video.thumb_url
      = some (some "https://picsum.photos/seed/mitabo-a/640/360") ∧
    (splitext "a-1.mp4").1 = "a-1" ∧
    ("https://picsum.photos/seed/mitabo-a/640/360" : String)
      ≠ "https://picsum.photos/seed/mitabo-" ++ "a-1" ++ "/640/360" :=
  ⟨by decide, by decide, by decide, by decide⟩

/-- C8 (amended): for every accepted upload the thumbnail URL is derived
deterministically from the base of the *sanitized client-supplied* filename,
before any collision suffix is appended. -/
theorem thumb_url_from_sanitized_base (env : UploadEnv) (form : UploadForm)
    (fname : String) (hne : fname ≠ "") (hok : allowed_file fname = true) :
    ∃ v, upload_post env (some fname) form = .created v ∧
      v.thumb_url = some ("https://picsum.photos/seed/mitabo-"
        ++ (splitext (secure_filename fname)).1 ++ "/640/360") := by
  obtain ⟨v, hv, -, -, hth, -, -⟩ := upload_created_fields env form fname hne hok
  exact ⟨v, hv, hth⟩

/-- C8 witness: the amended derivation at a concrete colliding upload. -/
theorem thumb_url_from_sanitized_base_witness :
    ∃ v, upload_post { existing := ["a.mp4"] } (some "a.mp4") ({} : UploadForm)
        = .created v ∧
      v.thumb_url = some ("https://picsum.photos/seed/mitabo-"
        ++ (splitext (secure_filename "a.mp4")).1 ++ "/640/360") :=
  thumb_url_from_sanitized_base { existing := ["a.mp4"] } {} "a.mp4"
    (by decide) (by decide)

/-- C9: the suffix-and-retry loop of the storage namer terminates within
`existing.length + 1` probes (the fuel with which `reserveFrom` is run), and
the name it returns is never one already present in the upload root. -/
theorem reserve_fresh_name (existing : List String) (desired : String) :
    existing.contains (reserveName existing desired) = false := by
  have h := reserveName_not_mem existing desired
  simpa using h

/-- C9 witness: concrete freshness at a colliding root. -/
theorem reserve_fresh_name_witness :
    ["a.mp4", "a-1.mp4"].contains (reserveName ["a.mp4", "a-1.mp4"] "a.mp4")
      = false :=
  reserve_fresh_name ["a.mp4", "a-1.mp4"] "a.mp4"

/-- C10: the finally stored filename contains no path separator and is never
the parent-directory reference, so the written path stays inside the upload
root. -/
theorem stored_filename_stays_in_root (existing : List String)
    (clientName : String) :
    ((reserveName existing clientName).data.all (fun c => !(c == '/'))) = true ∧
    reserveName existing clientName ≠ ".." := by
  constructor
  · rw [List.all_eq_true]
    intro c hc
    have := reserveName_no_slash existing clientName c hc
    simp [this]
  · exact reserveName_ne_dotdot existing clientName

/-- C10 witness: a traversal-shaped client name is defanged. -/
theorem stored_filename_stays_in_root_witness :
    ((reserveName [] "../../etc/passwd").data.all (fun c => !(c == '/'))) = true ∧
    reserveName [] "../../etc/passwd" ≠ ".." :=
  stored_filename_stays_in_root [] "../../etc/passwd"

end Mitabo
